import Mathlib

/-!
A verification development for the opencode-chat-recall plugin
(src/storage.ts, src/search.ts, src/formatter.ts, src/index.ts, src/types.ts).

Strings from the TypeScript source are embedded as `List Char` (`Str`), so
that the character-level operations of the source (lower-casing, substring
containment, slicing, splitting on whitespace) are plain recursive functions
amenable to induction.  JavaScript's `String.prototype.includes`,
`indexOf`, `slice`, `split(/\s+/)` and `toLowerCase` are modelled
character-by-character; the `\s` character class is modelled by
`Char.isWhitespace`.
-/

/-- Character lists standing for JavaScript strings. -/
abbrev Str := List Char

/-- `s.toLowerCase()` — character-wise lower-casing. -/
def toLowerStr (s : Str) : Str := s.map Char.toLower

/-- JavaScript `haystack.includes(needle)`: substring containment. -/
def jsIncludes (haystack needle : Str) : Bool :=
  decide (needle <:+: haystack)

/-- JavaScript `haystack.indexOf(needle)`, position accumulator version.
Returns `none` where the source returns `-1`. -/
def idxOfAux (needle : Str) : Str → Nat → Option Nat
  | [], i => if needle = [] then some i else none
  | c :: cs, i =>
    if needle.isPrefixOf (c :: cs) then some i else idxOfAux needle cs (i + 1)

/-- JavaScript `haystack.indexOf(needle)` (`none` for `-1`). -/
def idxOf (haystack needle : Str) : Option Nat :=
  idxOfAux needle haystack 0

/-- Case-insensitive match of `needle` at the head of `l`, as performed by a
regex built with the `i` flag. -/
def ciPrefixAt (needle l : Str) : Bool :=
  (toLowerStr needle).isPrefixOf (toLowerStr l)

/-- Non-overlapping left-to-right scan counting case-insensitive literal
matches of a nonempty `needle`: each match advances past the matched text.
The scan consumes at least one character per step, so fuel equal to the
length of the scanned text suffices; the structural recursion on fuel keeps
the definition kernel-reducible. -/
def countOccScan (needle : Str) : Nat → Str → Nat
  | 0, _ => 0
  | _, [] => 0
  | fuel + 1, c :: cs =>
    if ciPrefixAt needle (c :: cs) then
      1 + countOccScan needle fuel (cs.drop (needle.length - 1))
    else
      countOccScan needle fuel cs

/-- The case-insensitive non-overlapping occurrence count of `needle` in
`content` — the spec's "occurrence count of that term within the chunk
content".  This is what the source's global regex scan
(`content.match(new RegExp(term, "gi")) || []).length` computes for a term
free of regex metacharacters; for other terms the source counts regex
matches instead (see `scoreChunkRegex`).  An empty pattern matches once at
every position, including the end of the string. -/
def countOcc (content needle : Str) : Nat :=
  if needle = [] then content.length + 1 else countOccScan needle content.length content

/-- JavaScript `String.prototype.split(/\s+/)` followed by
`.filter(Boolean)`: the maximal nonempty runs of non-whitespace characters.
`acc` accumulates the current run in reverse. -/
def splitWsAux : Str → Str → List Str
  | [], acc => if acc = [] then [] else [acc.reverse]
  | c :: cs, acc =>
    if c.isWhitespace then
      if acc = [] then splitWsAux cs [] else acc.reverse :: splitWsAux cs []
    else
      splitWsAux cs (c :: acc)

/-- Whitespace tokenisation: `query.split(/\s+/).filter(Boolean)`. -/
def splitWs (s : Str) : List Str := splitWsAux s []

/-- search.ts line 24: `query.toLowerCase().split(/\s+/).filter(Boolean)`. -/
def searchTermsOf (query : Str) : List Str := splitWs (toLowerStr query)

/-- search.ts line 35: a chunk matches iff every search term is contained in
the lower-cased content (`searchTerms.every((term) => contentLower.includes(term))`). -/
def chunkMatches (content : Str) (terms : List Str) : Bool :=
  terms.all (fun term => jsIncludes (toLowerStr content) term)

/-- The literal-scan reading of the score loop (search.ts lines 39-44:
`let score = 0; for (const term of searchTerms) score += matchCount`):
the sum of case-insensitive non-overlapping occurrence counts.  The source
builds `new RegExp(term, "gi")` from the raw term, so this agrees with the
program exactly when every term is free of regex metacharacters — in
particular when the term list is empty; `scoreChunkRegex` below models the
regex interpretation. -/
def scoreChunk (content : Str) (terms : List Str) : Nat :=
  terms.foldl (fun score term => score + countOcc content term) 0

/-- The spec-side notion used by the conjunctive-match law: `t` occurs as a
case-insensitive substring of `c`. -/
def CaseInsensitiveSubstr (t c : Str) : Prop :=
  toLowerStr t <:+: toLowerStr c

instance (t c : Str) : Decidable (CaseInsensitiveSubstr t c) := by
  unfold CaseInsensitiveSubstr
  infer_instance

-- Basic facts about the helpers.

theorem jsIncludes_iff_sub (h n : Str) : jsIncludes h n = true ↔ n <:+: h := by
  simp [jsIncludes]

theorem all_of_sublist {p : Str → Bool} {l l' : List Str}
    (hsub : List.Sublist l' l) (h : l.all p = true) : l'.all p = true := by
  rw [List.all_eq_true] at h ⊢
  intro x hx
  exact h x (hsub.mem hx)

/-- C3: a chunk matches the search filter iff every term occurs as a
case-insensitive substring of its content, and removing a term can only
weaken the filter.  The terms produced by search.ts line 24 are already
lower-cased, which the hypothesis `hlower` records. -/
theorem conjunctive_match_law (content : Str) (terms : List Str)
    (hlower : ∀ t ∈ terms, toLowerStr t = t) :
    ((chunkMatches content terms = true) ↔ ∀ t ∈ terms, CaseInsensitiveSubstr t content) ∧
    (∀ t, chunkMatches content terms = true → chunkMatches content (terms.erase t) = true) := by
  constructor
  · rw [chunkMatches, List.all_eq_true]
    constructor <;> intro h t ht
    · have hmem := h t ht
      rw [jsIncludes_iff_sub] at hmem
      rw [CaseInsensitiveSubstr, hlower t ht]
      exact hmem
    · have hmem := h t ht
      rw [CaseInsensitiveSubstr, hlower t ht] at hmem
      rw [jsIncludes_iff_sub]
      exact hmem
  · intro t h
    exact all_of_sublist (terms.erase_sublist t) h

theorem conjunctive_match_law_witness :
    (∀ t ∈ [(['b', 'u', 'c'] : Str)], toLowerStr t = t) ∧
    (((chunkMatches (['S', '3', ' ', 'B', 'u', 'c'] : Str) [(['b', 'u', 'c'] : Str)] = true) ↔
        ∀ t ∈ [(['b', 'u', 'c'] : Str)],
          CaseInsensitiveSubstr t (['S', '3', ' ', 'B', 'u', 'c'] : Str)) ∧
      (∀ t, chunkMatches (['S', '3', ' ', 'B', 'u', 'c'] : Str) [(['b', 'u', 'c'] : Str)] = true →
        chunkMatches (['S', '3', ' ', 'B', 'u', 'c'] : Str)
          ([(['b', 'u', 'c'] : Str)].erase t) = true)) :=
  ⟨by decide, conjunctive_match_law _ _ (by decide)⟩

theorem score_foldl_eq_sum (content : Str) (terms : List Str) (init : Nat) :
    terms.foldl (fun score term => score + countOcc content term) init
      = init + (terms.map (countOcc content)).sum := by
  induction terms generalizing init with
  | nil => simp
  | cons t ts ih =>
    rw [List.foldl_cons, ih, List.map_cons, List.sum_cons]
    omega

/-! ## C4: the score treats the term as a regular expression

search.ts line 41 builds `new RegExp(term, "gi")` from the raw query term —
nothing escapes regex metacharacters — and line 42 counts its global
matches.  The fragment modelled here covers the patterns whose characters
are either ordinary or the any-character metacharacter `.`; a term
containing any other ECMAScript syntax character is outside the fragment
(`compileTermPattern` returns `none`): on such terms the source counts
non-literal regex matches or the `RegExp` constructor throws a
`SyntaxError` (e.g. on `"("`). -/

/-- The ECMAScript `SyntaxCharacter` set:
`^ $ \ . * + ? ( ) [ ] { } |` (braces written via their code points). -/
def regexSpecialChars : Str :=
  ['^', '$', '\\', '.', '*', '+', '?', '(', ')', '[', ']',
    Char.ofNat 123, Char.ofNat 125, '|']

def isRegexSpecial (c : Char) : Bool := regexSpecialChars.contains c

/-- One element of a pattern in the modelled fragment: a literal character
or the `.` metacharacter.  Each atom consumes exactly one character. -/
inductive RegexAtom where
  | lit (c : Char)
  | dot
deriving Repr, DecidableEq

/-- `new RegExp(term, ...)` for the modelled fragment: `.` becomes the
any-character atom, every non-special character a literal; a term containing
any other syntax character is outside the fragment (`none`). -/
def compileTermPattern : Str → Option (List RegexAtom)
  | [] => some []
  | c :: cs =>
    if c = '.' then (compileTermPattern cs).map (fun p => RegexAtom.dot :: p)
    else if isRegexSpecial c then none
    else (compileTermPattern cs).map (fun p => RegexAtom.lit c :: p)

/-- ECMAScript line terminators, which `.` does not match. -/
def isLineTerminator (c : Char) : Bool :=
  c = Char.ofNat 10 || c = Char.ofNat 13 || c = Char.ofNat 0x2028 || c = Char.ofNat 0x2029

/-- Whether one atom matches one character; the `i` flag's simple case
folding is lower-casing on the basic latin range. -/
def atomMatches : RegexAtom → Char → Bool
  | .lit d, c => d.toLower == c.toLower
  | .dot, c => !isLineTerminator c

/-- Whether the pattern matches at the start of `l` (every atom consumes one
character, so a match consumes exactly `p.length` characters). -/
def patMatchesAt : List RegexAtom → Str → Bool
  | [], _ => true
  | _ :: _, [] => false
  | a :: p, c :: cs => atomMatches a c && patMatchesAt p cs

/-- The global regex scan (`lastIndex` advances past each match), fuel-driven
exactly like `countOccScan`. -/
def regexCountScan (p : List RegexAtom) : Nat → Str → Nat
  | 0, _ => 0
  | _, [] => 0
  | fuel + 1, c :: cs =>
    if patMatchesAt p (c :: cs) then
      1 + regexCountScan p fuel (cs.drop (p.length - 1))
    else
      regexCountScan p fuel cs

/-- `(content.match(regex) || []).length` for a compiled pattern of the
fragment. -/
def regexCount (p : List RegexAtom) (content : Str) : Nat :=
  if p = [] then content.length + 1 else regexCountScan p content.length content

/-- search.ts lines 39-44 with the term interpreted as the regular
expression it is: each term is compiled by `new RegExp(term, "gi")` and its
global match count added.  `none` when some term falls outside the modelled
fragment (where the source counts matches of other regex constructs or the
constructor throws). -/
def scoreChunkRegex (content : Str) (terms : List Str) : Option Nat :=
  terms.foldl
    (fun acc term =>
      match acc, compileTermPattern term with
      | some s, some p => some (s + regexCount p content)
      | _, _ => none)
    (some 0)

theorem patMatchesAt_lit (t : Str) :
    ∀ l : Str, patMatchesAt (t.map RegexAtom.lit) l = ciPrefixAt t l := by
  induction t with
  | nil =>
    intro l
    simp [patMatchesAt, ciPrefixAt, toLowerStr, List.isPrefixOf]
  | cons c cs ih =>
    intro l
    cases l with
    | nil => simp [patMatchesAt, ciPrefixAt, toLowerStr, List.isPrefixOf]
    | cons d ds =>
      have hrest := ih ds
      rw [ciPrefixAt] at hrest
      simp [patMatchesAt, ciPrefixAt, toLowerStr, List.isPrefixOf, atomMatches, hrest]

theorem compileTermPattern_lit (t : Str) (h : ∀ c ∈ t, isRegexSpecial c = false) :
    compileTermPattern t = some (t.map RegexAtom.lit) := by
  induction t with
  | nil => rfl
  | cons c cs ih =>
    have hc : isRegexSpecial c = false := h c (List.mem_cons_self c cs)
    have hdot : c ≠ '.' := by
      intro he
      subst he
      exact absurd hc (by decide)
    rw [compileTermPattern, if_neg hdot, if_neg (by simp [hc]),
      ih (fun x hx => h x (List.mem_cons_of_mem c hx))]
    rfl

theorem regexCountScan_lit (t : Str) :
    ∀ (fuel : Nat) (l : Str),
      regexCountScan (t.map RegexAtom.lit) fuel l = countOccScan t fuel l := by
  intro fuel
  induction fuel with
  | zero => intro l; simp [regexCountScan, countOccScan]
  | succ n ih =>
    intro l
    cases l with
    | nil => simp [regexCountScan, countOccScan]
    | cons c cs =>
      rw [regexCountScan, countOccScan, patMatchesAt_lit]
      by_cases h : ciPrefixAt t (c :: cs) = true
      · rw [if_pos h, if_pos h, List.length_map, ih]
      · rw [if_neg h, if_neg h, ih]

theorem regexCount_lit (t : Str) (content : Str) :
    regexCount (t.map RegexAtom.lit) content = countOcc content t := by
  rw [regexCount, countOcc]
  by_cases h : t = []
  · subst h
    simp
  · rw [if_neg (by simpa using h), if_neg h, regexCountScan_lit]

theorem scoreChunkRegex_foldl (content : Str) (terms : List Str) (init : Nat)
    (hlit : ∀ t ∈ terms, ∀ c ∈ t, isRegexSpecial c = false) :
    terms.foldl
        (fun acc term =>
          match acc, compileTermPattern term with
          | some s, some p => some (s + regexCount p content)
          | _, _ => none)
        (some init)
      = some (init + (terms.map (countOcc content)).sum) := by
  induction terms generalizing init with
  | nil => simp
  | cons t ts ih =>
    rw [List.foldl_cons]
    have hct := compileTermPattern_lit t (hlit t (List.mem_cons_self t ts))
    simp only [hct, regexCount_lit]
    rw [ih (init + countOcc content t) (fun x hx => hlit x (List.mem_cons_of_mem t hx))]
    simp [Nat.add_assoc]

/-- C4 (amended): for every chunk content and every term list whose terms
are free of regex metacharacters, the computed relevance score equals the
sum over terms of the case-insensitive (non-overlapping global-scan)
occurrence count of the term within the chunk content; the score is
non-negative, and identical `(content, terms)` pairs yield identical
scores.  (For a term containing metacharacters the code counts regex
matches of the term instead, or throws on an invalid pattern.) -/
theorem score_eq_sum_for_literal_terms (content : Str) (terms : List Str)
    (hlit : ∀ t ∈ terms, ∀ c ∈ t, isRegexSpecial c = false) :
    scoreChunkRegex content terms = some (scoreChunk content terms) ∧
    scoreChunk content terms = (terms.map (countOcc content)).sum ∧
    0 ≤ scoreChunk content terms ∧
    (∀ c' ts', c' = content → ts' = terms →
      scoreChunkRegex c' ts' = scoreChunkRegex content terms) := by
  have hsum : scoreChunk content terms = (terms.map (countOcc content)).sum := by
    rw [scoreChunk, score_foldl_eq_sum, Nat.zero_add]
  refine ⟨?_, hsum, Nat.zero_le _, ?_⟩
  · rw [scoreChunkRegex, scoreChunkRegex_foldl content terms 0 hlit, hsum, Nat.zero_add]
  · intro c' ts' h1 h2
    rw [h1, h2]

theorem score_eq_sum_for_literal_terms_witness :
    (∀ t ∈ [(['a'] : Str)], ∀ c ∈ t, isRegexSpecial c = false) ∧
    (scoreChunkRegex (['a', 'A', 'a'] : Str) [(['a'] : Str)]
        = some (scoreChunk (['a', 'A', 'a'] : Str) [(['a'] : Str)]) ∧
      scoreChunk (['a', 'A', 'a'] : Str) [(['a'] : Str)]
        = ([(['a'] : Str)].map (countOcc (['a', 'A', 'a'] : Str))).sum ∧
      0 ≤ scoreChunk (['a', 'A', 'a'] : Str) [(['a'] : Str)] ∧
      (∀ c' ts', c' = (['a', 'A', 'a'] : Str) → ts' = [(['a'] : Str)] →
        scoreChunkRegex c' ts' = scoreChunkRegex (['a', 'A', 'a'] : Str) [(['a'] : Str)])) :=
  ⟨by decide, score_eq_sum_for_literal_terms _ _ (by decide)⟩

def contentAC : Str := ['a', '.', 'c', ' ', 'a', 'b', 'c']

def termAC : Str := ['a', '.', 'c']

/-- C4 as stated is refuted: the query term reaches `new RegExp` verbatim,
so the term "a.c" on content "a.c abc" passes the literal substring filter
but is scored as a regex — the scan also matches "abc" and yields 2, while
the case-insensitive occurrence count of the term in the content is 1. -/
theorem score_not_occurrence_count_on_metachar :
    chunkMatches contentAC [termAC] = true ∧
    scoreChunkRegex contentAC [termAC] = some 2 ∧
    (([termAC] : List Str).map (countOcc contentAC)).sum = 1 := by decide

/-! ## Data model (types.ts) -/

/-- types.ts `TranscriptMetadata`.  Timestamps are epoch milliseconds. -/
structure TranscriptMetadata where
  sessionID : String
  projectID : String
  title : String
  directory : String
  worktree : String
  createdAt : Nat
  updatedAt : Nat
  messageCount : Nat
  compacted : Bool
  compactedAt : Option Nat
  expiresAt : Nat
deriving Repr, DecidableEq

/-- types.ts `TranscriptChunk`. -/
structure TranscriptChunk where
  id : String
  sessionID : String
  messageID : String
  role : String
  content : Str
  timestamp : Nat
  partTypes : List String
deriving Repr, DecidableEq

/-- types.ts `Transcript`. -/
structure Transcript where
  metadata : TranscriptMetadata
  markdown : Str
  text : Str
  chunks : List TranscriptChunk
deriving Repr, DecidableEq

/-! ## Chunk builder (formatter.ts) -/

/-- The status-tagged state of a tool-invocation part (the fields of the SDK
`ToolPart.state` that formatter.ts reads: `status`, `input`, `output`).
`input` stands for the already-serialised `JSON.stringify(state.input)`. -/
inductive ToolState where
  | running (input : Str)
  | completed (input : Str) (output : Str)
  | error (input : Str) (errorMsg : Str)
deriving Repr, DecidableEq

/-- `state.input` (serialised), read by createChunks for every status. -/
def ToolState.input : ToolState → Str
  | .running i => i
  | .completed i _ => i
  | .error i _ => i

/-- The SDK `Part` tagged union as consumed by formatter.ts. -/
inductive MsgPart where
  | text (s : Str)
  | reasoning (s : Str)
  | tool (toolName : Str) (state : ToolState)
  | file (filename : Str)
  | stepStart
  | stepFinish
  | snapshot
  | patch
  | compaction
deriving Repr, DecidableEq

/-- `part.type`, the tag pushed into `partTypes` (formatter.ts line 255). -/
def MsgPart.typeTag : MsgPart → String
  | .text _ => "text"
  | .reasoning _ => "reasoning"
  | .tool _ _ => "tool"
  | .file _ => "file"
  | .stepStart => "step-start"
  | .stepFinish => "step-finish"
  | .snapshot => "snapshot"
  | .patch => "patch"
  | .compaction => "compaction"

/-- The line `Tool: <name>` (formatter.ts line 261). -/
def toolNameLine (toolName : Str) : Str :=
  ['T', 'o', 'o', 'l', ':', ' '] ++ toolName

/-- The line `Input: <serialised input>` (formatter.ts line 262). -/
def inputLine (input : Str) : Str :=
  ['I', 'n', 'p', 'u', 't', ':', ' '] ++ input

/-- The line `Output: <output>` (formatter.ts line 266). -/
def outputLine (output : Str) : Str :=
  ['O', 'u', 't', 'p', 'u', 't', ':', ' '] ++ output

/-- formatter.ts lines 254-271: the entries one part pushes onto
`contentParts`.  A tool part contributes the tool name and serialised input,
plus — only when its status is `completed` — the output truncated to its
first 1000 characters; text and reasoning parts contribute their text; all
other part kinds contribute nothing. -/
def partContentLines : MsgPart → List Str
  | .text s => [s]
  | .tool toolName st =>
    [toolNameLine toolName, inputLine st.input] ++
      (match st with
       | .completed _ out => [outputLine (out.take 1000)]
       | _ => [])
  | .reasoning s => [s]
  | _ => []

/-- SDK `MessageInfo` fields used by formatter.ts: `id`, `role`,
`time.created`. -/
structure MessageInfo where
  id : String
  role : String
  timeCreated : Nat
deriving Repr, DecidableEq

/-- types.ts `MessageWithParts`. -/
structure MessageWithParts where
  info : MessageInfo
  parts : List MsgPart
deriving Repr, DecidableEq

/-- The `contentParts` accumulated for one message (formatter.ts lines
252-271). -/
def msgContentParts (m : MessageWithParts) : List Str :=
  m.parts.flatMap partContentLines

/-- `[...new Set(partTypes)]` (formatter.ts line 281): deduplication keeping
first-seen order. -/
def msgPartTypes (m : MessageWithParts) : List String :=
  (m.parts.map MsgPart.typeTag).eraseDups

def newlineStr : Str := ['\n']

/-- The chunk pushed for a message with nonempty content (formatter.ts lines
274-282); `content` is `contentParts.join("\n")`. -/
def mkChunk (sessionID : String) (i : Nat) (m : MessageWithParts) : TranscriptChunk :=
  { id := "chunk_" ++ toString i
    sessionID := sessionID
    messageID := m.info.id
    role := m.info.role
    content := List.intercalate newlineStr (msgContentParts m)
    timestamp := m.info.timeCreated
    partTypes := msgPartTypes m }

/-- formatter.ts lines 249-284: the per-message loop with the running
`chunkIndex`; a message is skipped (no chunk, index not advanced) when it
produced no content. -/
def createChunksAux (sessionID : String) : List MessageWithParts → Nat → List TranscriptChunk
  | [], _ => []
  | m :: ms, i =>
    if msgContentParts m ≠ [] then
      mkChunk sessionID i m :: createChunksAux sessionID ms (i + 1)
    else
      createChunksAux sessionID ms i

/-- formatter.ts `createChunks`.  The defensive `Array.isArray` check on the
host-supplied list is the identity here since the embedding's input is always
a proper list. -/
def createChunks (messages : List MessageWithParts) (sessionID : String) : List TranscriptChunk :=
  createChunksAux sessionID messages 0

theorem createChunksAux_map_messageID (sid : String) :
    ∀ (msgs : List MessageWithParts) (i : Nat),
      (createChunksAux sid msgs i).map (fun c => c.messageID)
        = (msgs.filter (fun m => msgContentParts m ≠ [])).map (fun m => m.info.id) := by
  intro msgs
  induction msgs with
  | nil => intro i; simp [createChunksAux]
  | cons m ms ih =>
    intro i
    by_cases h : msgContentParts m = []
    · simp [createChunksAux, h, List.filter_cons, ih]
    · simp [createChunksAux, h, List.filter_cons, ih, mkChunk]

theorem createChunksAux_mem_of_content (sid : String) :
    ∀ (msgs : List MessageWithParts) (i : Nat) (m : MessageWithParts),
      m ∈ msgs → msgContentParts m ≠ [] →
      ∃ c ∈ createChunksAux sid msgs i, c.messageID = m.info.id ∧
        c.content = List.intercalate newlineStr (msgContentParts m) ∧
        c.partTypes = msgPartTypes m := by
  intro msgs
  induction msgs with
  | nil => intro i m hm; cases hm
  | cons m0 ms ih =>
    intro i m hm hne
    rcases List.mem_cons.mp hm with heq | hmem
    · subst heq
      refine ⟨mkChunk sid i m, ?_, rfl, rfl, rfl⟩
      simp [createChunksAux, hne]
    · by_cases h0 : msgContentParts m0 = []
      · rcases ih i m hmem hne with ⟨c, hc, hprop⟩
        exact ⟨c, by simp [createChunksAux, h0, hc], hprop⟩
      · rcases ih (i + 1) m hmem hne with ⟨c, hc, hprop⟩
        refine ⟨c, ?_, hprop⟩
        simp [createChunksAux, h0]
        exact Or.inr hc

theorem outputLine_ne_toolNameLine (out toolName : Str) :
    outputLine out ≠ toolNameLine toolName := by
  intro h
  simp only [outputLine, toolNameLine, List.cons_append, List.nil_append,
    List.cons.injEq] at h
  exact absurd h.1 (by decide)

theorem outputLine_ne_inputLine (out input : Str) :
    outputLine out ≠ inputLine input := by
  intro h
  simp only [outputLine, inputLine, List.cons_append, List.nil_append,
    List.cons.injEq] at h
  exact absurd h.1 (by decide)

/-- C8: a message containing a tool-invocation part yields a chunk whose
content carries a `Tool:` line with the tool name and an `Input:` line with
the serialised input; an `Output:` line (truncated to the first 1000
characters) appears in the tool part's contribution iff the tool completed,
never while running or errored; and the chunks are exactly one per message
with nonempty content — a message whose parts produce no content yields no
chunk at all. -/
theorem tool_part_chunk (sid : String) (messages : List MessageWithParts)
    (m : MessageWithParts) (toolName : Str) (st : ToolState)
    (hm : m ∈ messages) (hp : MsgPart.tool toolName st ∈ m.parts) :
    toolNameLine toolName ∈ msgContentParts m ∧
    inputLine st.input ∈ msgContentParts m ∧
    ((∃ out, outputLine out ∈ partContentLines (MsgPart.tool toolName st)) ↔
      ∃ inp out, st = ToolState.completed inp out) ∧
    (∀ inp out, st = ToolState.completed inp out →
      outputLine (out.take 1000) ∈ msgContentParts m) ∧
    (∃ c ∈ createChunks messages sid, c.messageID = m.info.id ∧
      c.content = List.intercalate newlineStr (msgContentParts m)) ∧
    (createChunks messages sid).map (fun c => c.messageID)
      = (messages.filter (fun mm => msgContentParts mm ≠ [])).map (fun mm => mm.info.id) := by
  have htool : toolNameLine toolName ∈ msgContentParts m := by
    rw [msgContentParts, List.mem_flatMap]
    exact ⟨MsgPart.tool toolName st, hp, by simp [partContentLines]⟩
  have hinput : inputLine st.input ∈ msgContentParts m := by
    rw [msgContentParts, List.mem_flatMap]
    exact ⟨MsgPart.tool toolName st, hp, by simp [partContentLines]⟩
  have hne : msgContentParts m ≠ [] := by
    intro hemp
    rw [hemp] at htool
    cases htool
  refine ⟨htool, hinput, ?_, ?_, ?_, createChunksAux_map_messageID sid messages 0⟩
  · constructor
    · rintro ⟨out, hmem⟩
      cases st with
      | completed inp outp => exact ⟨inp, outp, rfl⟩
      | running inp =>
        simp only [partContentLines, List.append_nil, List.mem_cons,
          List.not_mem_nil, or_false] at hmem
        rcases hmem with h | h
        · exact absurd h (outputLine_ne_toolNameLine _ _)
        · exact absurd h (outputLine_ne_inputLine _ _)
      | error inp e =>
        simp only [partContentLines, List.append_nil, List.mem_cons,
          List.not_mem_nil, or_false] at hmem
        rcases hmem with h | h
        · exact absurd h (outputLine_ne_toolNameLine _ _)
        · exact absurd h (outputLine_ne_inputLine _ _)
    · rintro ⟨inp, out, heq⟩
      subst heq
      exact ⟨out.take 1000, by simp [partContentLines]⟩
  · intro inp out heq
    subst heq
    rw [msgContentParts, List.mem_flatMap]
    exact ⟨MsgPart.tool toolName (ToolState.completed inp out), hp,
      by simp [partContentLines]⟩
  · rcases createChunksAux_mem_of_content sid messages 0 m hm hne with ⟨c, hc, h1, h2, _⟩
    exact ⟨c, hc, h1, h2⟩

def c8msg : MessageWithParts :=
  { info := { id := "msg1", role := "assistant", timeCreated := 5 }
    parts := [MsgPart.tool ['l', 's'] (ToolState.running ['i'])] }

theorem tool_part_chunk_witness :
    c8msg ∈ [c8msg] ∧
    MsgPart.tool ['l', 's'] (ToolState.running ['i']) ∈ c8msg.parts ∧
    (toolNameLine ['l', 's'] ∈ msgContentParts c8msg ∧
      inputLine (ToolState.running ['i']).input ∈ msgContentParts c8msg ∧
      ((∃ out, outputLine out ∈ partContentLines (MsgPart.tool ['l', 's'] (ToolState.running ['i']))) ↔
        ∃ inp out, ToolState.running ['i'] = ToolState.completed inp out) ∧
      (∀ inp out, ToolState.running ['i'] = ToolState.completed inp out →
        outputLine (out.take 1000) ∈ msgContentParts c8msg) ∧
      (∃ c ∈ createChunks [c8msg] "s", c.messageID = c8msg.info.id ∧
        c.content = List.intercalate newlineStr (msgContentParts c8msg)) ∧
      (createChunks [c8msg] "s").map (fun c => c.messageID)
        = ([c8msg].filter (fun mm => msgContentParts mm ≠ [])).map (fun mm => mm.info.id)) :=
  ⟨by decide, by decide,
    tool_part_chunk "s" [c8msg] c8msg ['l', 's'] (ToolState.running ['i'])
      (by decide) (by decide)⟩

/-! ## Transcript store (storage.ts)

The per-session directory and the metadata index are modelled as association
lists in insertion order — matching both filesystem directory content and the
property order of the JavaScript `index.transcripts` object.  A raw file is
an `Option` of its parse result; a present-but-unparseable file is
`some none`.  All storage operations are total functions on this state: the
try/catch blocks of the source are modelled by the `Option`-valued results,
so "never raises" is totality. -/

/-- The on-disk files of one session directory.  `chunksDir` is `none` when
the `chunks/` subdirectory does not exist; each entry of the directory is a
file name with the chunk it parses to (`none` = corrupt JSON). -/
structure RawRecord where
  metadataFile : Option (Option TranscriptMetadata)
  mdFile : Option Str
  txtFile : Option Str
  chunksDir : Option (List (String × Option TranscriptChunk))
deriving Repr, DecidableEq

def emptyRawRecord : RawRecord :=
  { metadataFile := none, mdFile := none, txtFile := none, chunksDir := none }

/-- The durable state: per-session directories plus the metadata index
(`index.json`'s `transcripts` object). -/
structure StoreState where
  records : List (String × RawRecord)
  index : List (String × TranscriptMetadata)
deriving Repr, DecidableEq

def emptyStore : StoreState := { records := [], index := [] }

/-- Property lookup on a JavaScript-object-like association list. -/
def assocLookup {α : Type} (l : List (String × α)) (k : String) : Option α :=
  (l.find? (fun e => e.1 == k)).map Prod.snd

/-- Property assignment `obj[k] = v`: replaces in place when the key exists,
appends otherwise (JavaScript objects and directories keep insertion order). -/
def assocUpsert {α : Type} (l : List (String × α)) (k : String) (v : α) : List (String × α) :=
  if l.any (fun e => e.1 == k) then
    l.map (fun e => if e.1 == k then (k, v) else e)
  else
    l ++ [(k, v)]

/-- Property deletion `delete obj[k]` / file unlink. -/
def assocRemove {α : Type} (l : List (String × α)) (k : String) : List (String × α) :=
  l.filter (fun e => e.1 != k)

/-- storage.ts updateIndexEntry (lines 45-49). -/
def updateIndexEntry (st : StoreState) (metadata : TranscriptMetadata) : StoreState :=
  { st with index := assocUpsert st.index metadata.sessionID metadata }

/-- storage.ts removeIndexEntry (lines 51-55). -/
def removeIndexEntry (st : StoreState) (sessionID : String) : StoreState :=
  { st with index := assocRemove st.index sessionID }

def jsonSuffix : String := ".json"

/-- `name.endsWith(".json")`, computed on the character lists (kept
kernel-reducible by checking reversed lists with `isPrefixOf`). -/
def strEndsWith (s suffix : String) : Bool :=
  suffix.toList.reverse.isPrefixOf s.toList.reverse

/-- storage.ts saveTranscript (lines 57-87): writes metadata, markdown, text,
then one `<chunk.id>.json` file per chunk into the (created-if-missing)
`chunks/` directory, then upserts the index entry.  Chunk files already in the
directory that are not overwritten are left in place — the function removes
nothing. -/
def saveTranscript (st : StoreState) (t : Transcript) : StoreState :=
  let sid := t.metadata.sessionID
  let r0 := (assocLookup st.records sid).getD emptyRawRecord
  let r1 : RawRecord :=
    { r0 with
      metadataFile := some (some t.metadata)
      mdFile := some t.markdown
      txtFile := some t.text }
  let dir0 := r1.chunksDir.getD []
  let dir1 := t.chunks.foldl (fun d c => assocUpsert d (c.id ++ jsonSuffix) (some c)) dir0
  let st1 : StoreState :=
    { st with records := assocUpsert st.records sid { r1 with chunksDir := some dir1 } }
  updateIndexEntry st1 t.metadata

/-- storage.ts line 110: `chunks.sort((a, b) => a.timestamp - b.timestamp)`
(JavaScript sort is stable). -/
def sortChunksByTimestamp (cs : List TranscriptChunk) : List TranscriptChunk :=
  List.insertionSort (fun a b => a.timestamp ≤ b.timestamp) cs

/-- The chunk-file loop of loadTranscript (storage.ts lines 102-108): files
not ending in `.json` are skipped; the first corrupt file throws, aborting
the loop (Bool = whether the loop ran to completion). -/
def parseChunkFiles : List (String × Option TranscriptChunk) → List TranscriptChunk × Bool
  | [] => ([], true)
  | (name, pc) :: rest =>
    if strEndsWith name jsonSuffix then
      match pc with
      | none => ([], false)
      | some c =>
        let r := parseChunkFiles rest
        (c :: r.1, r.2)
    else
      parseChunkFiles rest

/-- storage.ts lines 97-113: the chunks of a session.  A missing directory or
a thrown parse error is swallowed by the inner try/catch; on a parse error the
already-parsed prefix is kept and the sort is skipped. -/
def readChunks (dir? : Option (List (String × Option TranscriptChunk))) : List TranscriptChunk :=
  match dir? with
  | none => []
  | some files =>
    let r := parseChunkFiles files
    if r.2 then sortChunksByTimestamp r.1 else r.1

/-- storage.ts loadTranscript (lines 89-119) on one session directory: any
failure reading or parsing metadata, markdown or text makes the outer catch
return `null`; totality of this function models "never raises". -/
def loadTranscriptR (r : RawRecord) : Option Transcript :=
  match r.metadataFile with
  | none => none
  | some none => none
  | some (some metadata) =>
    match r.mdFile with
    | none => none
    | some markdown =>
      match r.txtFile with
      | none => none
      | some text =>
        some { metadata := metadata, markdown := markdown, text := text,
               chunks := readChunks r.chunksDir }

/-- The session directory of `sessionID` (a missing directory behaves as a
directory with no files: every read in it fails). -/
def recordOf (st : StoreState) (sessionID : String) : RawRecord :=
  (assocLookup st.records sessionID).getD emptyRawRecord

def loadTranscript (st : StoreState) (sessionID : String) : Option Transcript :=
  loadTranscriptR (recordOf st sessionID)

/-- storage.ts loadTranscriptMarkdown (lines 121-128). -/
def loadTranscriptMarkdownR (r : RawRecord) : Option Str := r.mdFile

/-- storage.ts loadTranscriptText (lines 130-137). -/
def loadTranscriptTextR (r : RawRecord) : Option Str := r.txtFile

/-- storage.ts deleteTranscript (lines 168-202): best-effort removal of every
file of the session and of its index entry; all failures are caught and
logged, never propagated. -/
def deleteTranscript (st : StoreState) (sessionID : String) : StoreState :=
  { records := assocRemove st.records sessionID
    index := assocRemove st.index sessionID }

/-- storage.ts line 158: sort by `updatedAt` descending (stable). -/
def sortByUpdatedAtDesc (l : List TranscriptMetadata) : List TranscriptMetadata :=
  List.insertionSort (fun a b => b.updatedAt ≤ a.updatedAt) l

/-- storage.ts listTranscripts (lines 139-166).  The three `if (options?.x)`
guards are JavaScript truthiness tests: an absent option, an empty-string
filter or a zero limit each disable their step. -/
def listTranscripts (st : StoreState) (projectID? sessionID? : Option String)
    (limit? : Option Nat) : List TranscriptMetadata :=
  let ts0 := st.index.map Prod.snd
  let ts1 := match projectID? with
    | some p => if p != "" then ts0.filter (fun t => t.projectID == p) else ts0
    | none => ts0
  let ts2 := match sessionID? with
    | some s => if s != "" then ts1.filter (fun t => t.sessionID == s) else ts1
    | none => ts1
  let ts3 := sortByUpdatedAtDesc ts2
  match limit? with
  | some l => if l != 0 then ts3.take l else ts3
  | none => ts3

/-- storage.ts line 210: `metadata.expiresAt && metadata.expiresAt < now` —
the truthiness conjunct makes `expiresAt = 0` never expire. -/
def isExpired (m : TranscriptMetadata) (now : Nat) : Bool :=
  (m.expiresAt != 0) && decide (m.expiresAt < now)

/-- The loop of cleanupExpiredTranscripts (storage.ts lines 209-214) over the
snapshot of `Object.entries(index.transcripts)` taken at entry. -/
def sweepAux (now : Nat) : List (String × TranscriptMetadata) → StoreState → StoreState × Nat
  | [], st => (st, 0)
  | (sid, m) :: rest, st =>
    if isExpired m now then
      let r := sweepAux now rest (deleteTranscript st sid)
      (r.1, r.2 + 1)
    else
      sweepAux now rest st

/-- storage.ts cleanupExpiredTranscripts (lines 204-217). -/
def cleanupExpiredTranscripts (st : StoreState) (now : Nat) : StoreState × Nat :=
  sweepAux now st.index st

/-- storage.ts calculateExpiresAt (lines 219-221). -/
def calculateExpiresAt (now : Nat) (retentionDays : Nat) : Nat :=
  now + retentionDays * 24 * 60 * 60 * 1000

def RETENTION_DAYS : Nat := 7

/-! ## C1: saving does not clear stale chunk files -/

def sampleMeta : TranscriptMetadata :=
  { sessionID := "s", projectID := "p", title := "t", directory := "d",
    worktree := "w", createdAt := 10, updatedAt := 10, messageCount := 2,
    compacted := false, compactedAt := none, expiresAt := 100 }

def chunkA0 : TranscriptChunk :=
  { id := "chunk_0", sessionID := "s", messageID := "m0", role := "user",
    content := ['a'], timestamp := 1, partTypes := ["text"] }

def chunkA1 : TranscriptChunk :=
  { id := "chunk_1", sessionID := "s", messageID := "m1", role := "assistant",
    content := ['b'], timestamp := 2, partTypes := ["text"] }

def chunkB0 : TranscriptChunk :=
  { id := "chunk_0", sessionID := "s", messageID := "m0", role := "user",
    content := ['c'], timestamp := 1, partTypes := ["text"] }

def transcriptA : Transcript :=
  { metadata := sampleMeta, markdown := [], text := [], chunks := [chunkA0, chunkA1] }

def transcriptB : Transcript :=
  { metadata := { sampleMeta with messageCount := 1 }, markdown := [], text := [],
    chunks := [chunkB0] }

/-- C1 (refuted by the code): saving session `s` with two chunks and then
re-saving it with a single chunk leaves the first save's `chunk_1.json` in
the chunks directory, and the subsequent load returns that stale chunk next
to the fresh one — not exactly the chunks of the second save. -/
theorem second_save_leaves_stale_chunk :
    transcriptB.chunks = [chunkB0] ∧
    (loadTranscript (saveTranscript (saveTranscript emptyStore transcriptA) transcriptB)
        "s").map (fun t => t.chunks)
      = some [chunkB0, chunkA1] := by decide

/-! ## C5: the retention sweep -/

def expiredIds (now : Nat) (es : List (String × TranscriptMetadata)) : List String :=
  (es.filter (fun e => isExpired e.2 now)).map Prod.fst

theorem sweepAux_count (now : Nat) :
    ∀ (es : List (String × TranscriptMetadata)) (st : StoreState),
      (sweepAux now es st).2 = (es.filter (fun e => isExpired e.2 now)).length := by
  intro es
  induction es with
  | nil => intro st; simp [sweepAux]
  | cons e rest ih =>
    intro st
    rcases e with ⟨sid, m⟩
    by_cases h : isExpired m now
    · simp [sweepAux, h, List.filter_cons, ih]
    · simp [sweepAux, h, List.filter_cons, ih]

theorem sweepAux_index (now : Nat) :
    ∀ (es : List (String × TranscriptMetadata)) (st : StoreState),
      (sweepAux now es st).1.index
        = st.index.filter (fun e => !((expiredIds now es).contains e.1)) := by
  intro es
  induction es with
  | nil =>
    intro st
    simp [sweepAux, expiredIds]
  | cons e rest ih =>
    intro st
    rcases e with ⟨sid, m⟩
    by_cases h : isExpired m now
    · have hstep : (sweepAux now ((sid, m) :: rest) st).1
          = (sweepAux now rest (deleteTranscript st sid)).1 := by
        simp [sweepAux, h]
      rw [hstep, ih]
      have hdel : (deleteTranscript st sid).index = st.index.filter (fun e => e.1 != sid) := rfl
      rw [hdel, List.filter_filter]
      apply List.filter_congr
      intro e _
      simp [expiredIds, List.filter_cons, h, Bool.not_or, Bool.and_comm, bne]
    · have hstep : (sweepAux now ((sid, m) :: rest) st).1 = (sweepAux now rest st).1 := by
        simp [sweepAux, h]
      rw [hstep, ih]
      apply List.filter_congr
      intro e _
      simp [expiredIds, List.filter_cons, h]

theorem mem_expiredIds_iff (now : Nat) (idx : List (String × TranscriptMetadata))
    (hnodup : (idx.map Prod.fst).Nodup) (e : String × TranscriptMetadata)
    (he : e ∈ idx) :
    e.1 ∈ expiredIds now idx ↔ isExpired e.2 now = true := by
  constructor
  · intro hmem
    rcases List.mem_map.mp hmem with ⟨e', he', hfst⟩
    have he'idx : e' ∈ idx := (List.mem_filter.mp he').1
    have hexp : isExpired e'.2 now = true := (List.mem_filter.mp he').2
    have : e' = e := List.inj_on_of_nodup_map hnodup he'idx he hfst
    rw [← this]
    exact hexp
  · intro hexp
    exact List.mem_map.mpr ⟨e, List.mem_filter.mpr ⟨he, hexp⟩, rfl⟩

/-- C5 (amended): the sweep removes exactly the index entries whose
`expiresAt` is nonzero (truthy) and strictly before `now`, returns their
count, and is idempotent: an immediate second sweep deletes nothing. -/
theorem sweep_removes_nonzero_expired (st : StoreState) (now : Nat)
    (hnodup : (st.index.map Prod.fst).Nodup) :
    (cleanupExpiredTranscripts st now).2
        = (st.index.filter (fun e => isExpired e.2 now)).length ∧
    (cleanupExpiredTranscripts st now).1.index
        = st.index.filter (fun e => !(isExpired e.2 now)) ∧
    (cleanupExpiredTranscripts (cleanupExpiredTranscripts st now).1 now).2 = 0 := by
  have hidx : (cleanupExpiredTranscripts st now).1.index
      = st.index.filter (fun e => !(isExpired e.2 now)) := by
    rw [cleanupExpiredTranscripts, sweepAux_index]
    apply List.filter_congr
    intro e he
    by_cases hexp : isExpired e.2 now
    · simp [hexp, (mem_expiredIds_iff now st.index hnodup e he).mpr hexp]
    · have : e.1 ∉ expiredIds now st.index := by
        intro hmem
        exact hexp ((mem_expiredIds_iff now st.index hnodup e he).mp hmem)
      simp [hexp, this]
  refine ⟨?_, hidx, ?_⟩
  · exact sweepAux_count now st.index st
  · rw [cleanupExpiredTranscripts, sweepAux_count, hidx, List.filter_filter]
    simp

def zeroExpiryMeta : TranscriptMetadata := { sampleMeta with expiresAt := 0 }

/-- C5 as literally stated is refuted: an index entry with `expiresAt = 0`
is strictly before `now = 5` yet the sweep skips it (the JavaScript
truthiness test `metadata.expiresAt &&` fails on 0) — it is neither deleted
nor counted. -/
theorem sweep_skips_zero_expiresAt :
    zeroExpiryMeta.expiresAt < 5 ∧
    (cleanupExpiredTranscripts { records := [], index := [("s0", zeroExpiryMeta)] } 5).2 = 0 ∧
    (cleanupExpiredTranscripts { records := [], index := [("s0", zeroExpiryMeta)] } 5).1.index
      = [("s0", zeroExpiryMeta)] := by decide

def expiredMeta : TranscriptMetadata := { sampleMeta with sessionID := "s1", expiresAt := 3 }

def liveMeta : TranscriptMetadata := { sampleMeta with sessionID := "s2" }

def sweepStore : StoreState :=
  { records := [], index := [("s1", expiredMeta), ("s2", liveMeta)] }

theorem sweep_removes_nonzero_expired_witness :
    (sweepStore.index.map Prod.fst).Nodup ∧
    ((cleanupExpiredTranscripts sweepStore 5).2
        = (sweepStore.index.filter (fun e => isExpired e.2 5)).length ∧
      (cleanupExpiredTranscripts sweepStore 5).1.index
        = sweepStore.index.filter (fun e => !(isExpired e.2 5)) ∧
      (cleanupExpiredTranscripts (cleanupExpiredTranscripts sweepStore 5).1 5).2 = 0) :=
  ⟨by decide, sweep_removes_nonzero_expired sweepStore 5 (by decide)⟩

/-! ## C7: read-path failure semantics -/

/-- C7 (amended): `load` returns the absent result exactly when the metadata
file is missing or corrupt or the markdown or text file is missing;
`loadMarkdown`/`loadText` return absent exactly when their file is missing;
a corrupt metadata file is indistinguishable from a missing record.  (A
failure among the chunk files is swallowed by the inner try/catch and does
not make `load` absent.)  Totality of these functions models "never raises". -/
theorem load_absent_iff_required_failure (r : RawRecord) :
    ((loadTranscriptR r = none) ↔
      (r.metadataFile = none ∨ r.metadataFile = some none ∨
        r.mdFile = none ∨ r.txtFile = none)) ∧
    ((loadTranscriptMarkdownR r = none) ↔ r.mdFile = none) ∧
    ((loadTranscriptTextR r = none) ↔ r.txtFile = none) ∧
    loadTranscriptR { r with metadataFile := some none }
      = loadTranscriptR { r with metadataFile := none } := by
  refine ⟨?_, ?_, ?_, ?_⟩
  · rcases r with ⟨mf, md, tx, cd⟩
    rcases mf with _ | mf
    · simp [loadTranscriptR]
    · rcases mf with _ | m
      · simp [loadTranscriptR]
      · rcases md with _ | md
        · simp [loadTranscriptR]
        · rcases tx with _ | tx
          · simp [loadTranscriptR]
          · simp [loadTranscriptR]
  · rcases r with ⟨mf, md, tx, cd⟩
    rcases md with _ | md <;> simp [loadTranscriptMarkdownR]
  · rcases r with ⟨mf, md, tx, cd⟩
    rcases tx with _ | tx <;> simp [loadTranscriptTextR]
  · rfl

def corruptChunkRecord : RawRecord :=
  { metadataFile := some (some sampleMeta), mdFile := some [], txtFile := some [],
    chunksDir := some [("chunk_0.json", none)] }

/-- C7 as literally stated is refuted: with valid metadata, markdown and text
but a corrupt chunk file, a read/parse step fails yet `loadTranscript` does
not return the absent result — the inner catch swallows the chunk failure and
yields a transcript with no chunks. -/
theorem load_not_absent_on_corrupt_chunk :
    corruptChunkRecord.chunksDir = some [("chunk_0.json", none)] ∧
    loadTranscriptR corruptChunkRecord
      = some { metadata := sampleMeta, markdown := [], text := [], chunks := [] } := by
  decide

/-! ## C10: a zero limit is falsy -/

/-- C10: `listTranscripts` with `limit = 0` behaves as if no limit had been
supplied — the `if (options?.limit)` truthiness guard skips the `slice`, so
every matching transcript is returned rather than an empty list. -/
theorem list_limit_zero_returns_all (st : StoreState) (p s : Option String) :
    listTranscripts st p s (some 0) = listTranscripts st p s none ∧
    (listTranscripts st none none (some 0)).length = st.index.length := by
  constructor
  · simp [listTranscripts]
  · simp [listTranscripts, sortByUpdatedAtDesc, List.length_insertionSort]

/-! ## C2: the compacted flag across the event flow -/

/-- index.ts events (lines 173-189): a `session.idle` event triggers
`saveSessionTranscript(sessionID, false)` and a `session.compacted` event
`saveSessionTranscript(sessionID, true)`; each carries the `Date.now()` at
which the save runs. -/
inductive SessionEvent where
  | idle (now : Nat)
  | compactedEvt (now : Nat)
deriving Repr, DecidableEq

/-- The `compacted` argument the event handler passes to
`saveSessionTranscript`. -/
def SessionEvent.flag : SessionEvent → Bool
  | .idle _ => false
  | .compactedEvt _ => true

def SessionEvent.time : SessionEvent → Nat
  | .idle t => t
  | .compactedEvt t => t

/-- formatter.ts buildTranscript (lines 301-315): the metadata is rebuilt
from scratch on every save — every field, including `compacted`, comes from
the current call's arguments and `Date.now()`; nothing is read from any
previously stored metadata. -/
def buildTranscriptMetadata (sessionID projectID title directory worktree : String)
    (messageCount : Nat) (compacted : Bool) (now : Nat) : TranscriptMetadata :=
  { sessionID := sessionID, projectID := projectID, title := title,
    directory := directory, worktree := worktree,
    createdAt := now, updatedAt := now, messageCount := messageCount,
    compacted := compacted,
    compactedAt := if compacted then some now else none,
    expiresAt := calculateExpiresAt now RETENTION_DAYS }

/-- The metadata stored for one session after a sequence of save-triggering
events (each save fully replaces the stored metadata, as saveTranscript
upserts by sessionID). -/
def runSessionEvents (sessionID projectID title directory worktree : String)
    (messageCount : Nat) (events : List SessionEvent)
    (st : Option TranscriptMetadata) : Option TranscriptMetadata :=
  events.foldl
    (fun _prev e =>
      some (buildTranscriptMetadata sessionID projectID title directory worktree
        messageCount e.flag e.time))
    st

/-- C2 as stated is refuted: after a `session.compacted` save the stored
`compacted` flag is true, but a subsequent `session.idle` re-save rebuilds
the metadata with `compacted = false` — the flag is not monotonic true-once. -/
theorem compacted_reset_by_idle_resave :
    (runSessionEvents "s" "p" "t" "d" "w" 3
        [SessionEvent.compactedEvt 100] none).map (fun m => m.compacted)
      = some true ∧
    (runSessionEvents "s" "p" "t" "d" "w" 3
        [SessionEvent.compactedEvt 100, SessionEvent.idle 200] none).map (fun m => m.compacted)
      = some false := by decide

/-- C2 (amended): the stored `compacted` flag equals the flag of the most
recent save-triggering event; in particular a `session.idle` re-save after a
compaction resets it to false. -/
theorem compacted_follows_last_save (sessionID projectID title directory worktree : String)
    (messageCount : Nat) (events : List SessionEvent) (st : Option TranscriptMetadata)
    (h : events ≠ []) :
    (runSessionEvents sessionID projectID title directory worktree messageCount
        events st).map (fun m => m.compacted)
      = some (events.getLast h).flag := by
  induction events generalizing st with
  | nil => exact absurd rfl h
  | cons e es ih =>
    cases es with
    | nil => simp [runSessionEvents, List.getLast, buildTranscriptMetadata]
    | cons e' es' =>
      have hne : e' :: es' ≠ [] := by simp
      have hstep : runSessionEvents sessionID projectID title directory worktree
          messageCount (e :: e' :: es') st
        = runSessionEvents sessionID projectID title directory worktree
            messageCount (e' :: es')
            (some (buildTranscriptMetadata sessionID projectID title directory worktree
              messageCount e.flag e.time)) := by
        simp [runSessionEvents]
      rw [hstep, ih _ hne]
      exact congrArg (fun x => some x.flag) (List.getLast_cons hne).symm

theorem compacted_follows_last_save_witness :
    ([SessionEvent.compactedEvt 100, SessionEvent.idle 200] ≠ ([] : List SessionEvent)) ∧
    (runSessionEvents "s" "p" "t" "d" "w" 3
        [SessionEvent.compactedEvt 100, SessionEvent.idle 200] none).map (fun m => m.compacted)
      = some (([SessionEvent.compactedEvt 100, SessionEvent.idle 200].getLast (by decide)).flag) :=
  ⟨by decide, compacted_follows_last_save "s" "p" "t" "d" "w" 3
    [SessionEvent.compactedEvt 100, SessionEvent.idle 200] none (by decide)⟩

/-! ## C6: excerpt construction (search.ts createExcerpt) -/

def dots3 : Str := ['.', '.', '.']

/-- search.ts truncateText (lines 174-179):
`text.slice(0, maxLength - 3) + "..."` when the text is longer than
`maxLength`.  (`maxLength` is 200 or 500 at every call site, so the
JavaScript `maxLength - 3` never goes negative and agrees with Nat
subtraction.) -/
def truncateText (text : Str) (maxLength : Nat) : Str :=
  if text.length ≤ maxLength then text
  else text.take (maxLength - 3) ++ dots3

/-- search.ts lines 132-141: the earliest case-insensitive offset of any term
in the content, `content.length` when no term occurs — the fold of the
`index !== -1 && index < bestIndex` update over the terms. -/
def bestMatchIndex (content : Str) (terms : List Str) : Nat :=
  terms.foldl
    (fun best term =>
      match idxOf (toLowerStr content) term with
      | some i => if i < best then i else best
      | none => best)
    content.length

/-- search.ts line 149: `Math.floor(maxLength / 2)`. -/
def excerptHalf (maxLength : Nat) : Nat := maxLength / 2

/-- search.ts line 150: `Math.max(0, bestIndex - halfLength)` (Nat
subtraction clamps at 0 exactly as `Math.max(0, ·)` does). -/
def excerptStart0 (content : Str) (terms : List Str) (maxLength : Nat) : Nat :=
  bestMatchIndex content terms - excerptHalf maxLength

/-- search.ts line 151: `Math.min(content.length, start + maxLength)`. -/
def excerptEnd (content : Str) (terms : List Str) (maxLength : Nat) : Nat :=
  min content.length (excerptStart0 content terms maxLength + maxLength)

/-- search.ts lines 154-156: the start adjusted when the window hit the end
of the content (`Math.max(0, end - maxLength)` again as Nat subtraction). -/
def excerptStart (content : Str) (terms : List Str) (maxLength : Nat) : Nat :=
  if excerptEnd content terms maxLength = content.length ∧
      excerptEnd content terms maxLength - excerptStart0 content terms maxLength < maxLength
  then excerptEnd content terms maxLength - maxLength
  else excerptStart0 content terms maxLength

/-- The window and marker flags computed by createExcerpt (search.ts lines
143-166): `body` is `content.slice(start, end)`; the flags record whether
`"..."` was prepended (`start > 0`) or appended (`end < content.length`);
`windowStart` is the final `start`.  When no term was found (bestIndex equals
`content.length`) the excerpt is `truncateText(content, maxLength)` with no
markers. -/
structure ExcerptParts where
  leadingEllipsis : Bool
  body : Str
  trailingEllipsis : Bool
  windowStart : Nat
deriving Repr, DecidableEq

def excerptParts (content : Str) (terms : List Str) (maxLength : Nat) : ExcerptParts :=
  if bestMatchIndex content terms = content.length then
    { leadingEllipsis := false, body := truncateText content maxLength,
      trailingEllipsis := false, windowStart := 0 }
  else
    { leadingEllipsis := decide (0 < excerptStart content terms maxLength)
      body := (content.drop (excerptStart content terms maxLength)).take
        (excerptEnd content terms maxLength - excerptStart content terms maxLength)
      trailingEllipsis := decide (excerptEnd content terms maxLength < content.length)
      windowStart := excerptStart content terms maxLength }

/-- search.ts createExcerpt (lines 131-169), assembled from the parts. -/
def createExcerpt (content : Str) (terms : List Str) (maxLength : Nat) : Str :=
  (if (excerptParts content terms maxLength).leadingEllipsis then dots3 else [])
    ++ (excerptParts content terms maxLength).body
    ++ (if (excerptParts content terms maxLength).trailingEllipsis then dots3 else [])

theorem truncateText_length_le (t : Str) (n : Nat) (h3 : 3 ≤ n) :
    (truncateText t n).length ≤ n := by
  rw [truncateText]
  split
  · omega
  · rw [List.length_append, List.length_take]
    simp only [dots3, List.length_cons, List.length_nil]
    omega

theorem excerptEnd_sub_start_le (content : Str) (terms : List Str) (maxLength : Nat) :
    excerptEnd content terms maxLength - excerptStart content terms maxLength ≤ maxLength := by
  rw [excerptStart]
  split
  · omega
  · rw [excerptEnd, excerptStart0]
    omega

theorem excerptParts_body_length (content : Str) (terms : List Str) :
    (excerptParts content terms 500).body.length ≤ 500 := by
  by_cases hb : bestMatchIndex content terms = content.length
  · rw [excerptParts, if_pos hb]
    exact truncateText_length_le content 500 (by omega)
  · rw [excerptParts, if_neg hb]
    show ((content.drop (excerptStart content terms 500)).take
      (excerptEnd content terms 500 - excerptStart content terms 500)).length ≤ 500
    rw [List.length_take]
    have h := excerptEnd_sub_start_le content terms 500
    omega

/-- C6: for the configured maximum length 500, the excerpt is at most
500 + 6 characters (body plus at most two three-character ellipsis markers),
and a leading ellipsis marker is prepended only when the match window did not
start at offset 0 of the content. -/
theorem excerpt_bounded (content : Str) (terms : List Str) (_hne : terms ≠ []) :
    (createExcerpt content terms 500).length ≤ 500 + 6 ∧
    ((excerptParts content terms 500).leadingEllipsis = true →
      (excerptParts content terms 500).windowStart ≠ 0) ∧
    createExcerpt content terms 500
      = (if (excerptParts content terms 500).leadingEllipsis then dots3 else [])
          ++ (excerptParts content terms 500).body
          ++ (if (excerptParts content terms 500).trailingEllipsis then dots3 else []) := by
  refine ⟨?_, ?_, rfl⟩
  · have hbody := excerptParts_body_length content terms
    rw [createExcerpt, List.length_append, List.length_append]
    have h1 : (if (excerptParts content terms 500).leadingEllipsis then dots3 else []).length ≤ 3 := by
      split <;> simp [dots3]
    have h2 : (if (excerptParts content terms 500).trailingEllipsis then dots3 else []).length ≤ 3 := by
      split <;> simp [dots3]
    omega
  · by_cases hb : bestMatchIndex content terms = content.length
    · rw [excerptParts, if_pos hb]
      intro h
      simp at h
    · rw [excerptParts, if_neg hb]
      intro h
      have hpos : 0 < excerptStart content terms 500 := of_decide_eq_true h
      show excerptStart content terms 500 ≠ 0
      omega

theorem excerpt_bounded_witness :
    ([(['i'] : Str)] ≠ ([] : List Str)) ∧
    ((createExcerpt ['h', 'i'] [(['i'] : Str)] 500).length ≤ 500 + 6 ∧
      ((excerptParts ['h', 'i'] [(['i'] : Str)] 500).leadingEllipsis = true →
        (excerptParts ['h', 'i'] [(['i'] : Str)] 500).windowStart ≠ 0) ∧
      createExcerpt ['h', 'i'] [(['i'] : Str)] 500
        = (if (excerptParts ['h', 'i'] [(['i'] : Str)] 500).leadingEllipsis then dots3 else [])
            ++ (excerptParts ['h', 'i'] [(['i'] : Str)] 500).body
            ++ (if (excerptParts ['h', 'i'] [(['i'] : Str)] 500).trailingEllipsis then dots3
                else [])) :=
  ⟨by decide, excerpt_bounded ['h', 'i'] [(['i'] : Str)] (by decide)⟩

/-! ## C9: the full search pipeline on an empty or whitespace query -/

/-- search.ts lines 47-57: neighbouring-chunk context; `chunks[i-1]` is
`undefined` at `i = 0` and `chunks[i+1]` past the end; both neighbours are
truncated to 200 characters. -/
structure ResultContext where
  before : Option Str
  after : Option Str
deriving Repr, DecidableEq

def emptyContext : ResultContext := { before := none, after := none }

def chunkContext (chunks : List TranscriptChunk) (i : Nat) : ResultContext :=
  { before := if i = 0 then none
      else (chunks[i - 1]?).map (fun c => truncateText c.content 200)
    after := (chunks[i + 1]?).map (fun c => truncateText c.content 200) }

/-- types.ts `SearchResult`. -/
structure SearchResult where
  sessionID : String
  sessionTitle : String
  messageID : String
  role : String
  excerpt : Str
  timestamp : Nat
  score : Nat
  context : ResultContext
deriving Repr, DecidableEq

/-- The result pushed for a matching chunk (search.ts lines 62-71). -/
def mkSearchResult (metadata : TranscriptMetadata) (chunks : List TranscriptChunk)
    (i : Nat) (chunk : TranscriptChunk) (terms : List Str)
    (includeContext : Bool) : SearchResult :=
  { sessionID := metadata.sessionID
    sessionTitle := metadata.title
    messageID := chunk.messageID
    role := chunk.role
    excerpt := createExcerpt chunk.content terms 500
    timestamp := chunk.timestamp
    score := scoreChunk chunk.content terms
    context := if includeContext then chunkContext chunks i else emptyContext }

/-- The chunk loop of searchTranscripts (search.ts lines 30-72) for one
loaded transcript. -/
def transcriptResults (terms : List Str) (includeContext : Bool)
    (metadata : TranscriptMetadata) (t : Transcript) : List SearchResult :=
  t.chunks.enum.filterMap
    (fun p =>
      if chunkMatches p.2.content terms then
        some (mkSearchResult metadata t.chunks p.1 p.2 terms includeContext)
      else
        none)

/-- search.ts line 76: `results.sort((a, b) => b.score - a.score)` —
descending by score; JavaScript's sort is stable, as is insertion sort. -/
def sortByScoreDesc (l : List SearchResult) : List SearchResult :=
  List.insertionSort (fun a b => b.score ≤ a.score) l

/-- search.ts searchTranscripts (lines 16-80).  `candidates` pairs each
metadata entry returned by listTranscripts with the result of
`loadTranscript` for its session; `none` models the
`if (!transcript) continue`. -/
def searchTranscripts (candidates : List (TranscriptMetadata × Option Transcript))
    (query : Str) (limit : Nat) (includeContext : Bool) : List SearchResult :=
  (sortByScoreDesc
    (candidates.flatMap
      (fun c => match c.2 with
        | none => []
        | some t => transcriptResults (searchTermsOf query) includeContext c.1 t))).take limit

/-- Spec-side enumeration for the empty-terms case: every chunk of every
loaded candidate in iteration order, scored 0, the excerpt being the first
500 characters of the content. -/
def allChunkResults (candidates : List (TranscriptMetadata × Option Transcript))
    (includeContext : Bool) : List SearchResult :=
  candidates.flatMap
    (fun c => match c.2 with
      | none => []
      | some t => t.chunks.enum.map
          (fun p =>
            { sessionID := c.1.sessionID
              sessionTitle := c.1.title
              messageID := p.2.messageID
              role := p.2.role
              excerpt := truncateText p.2.content 500
              timestamp := p.2.timestamp
              score := 0
              context := if includeContext then chunkContext t.chunks p.1
                else emptyContext }))

theorem toLower_of_isWhitespace {c : Char} (h : c.isWhitespace = true) :
    c.toLower = c := by
  simp only [Char.isWhitespace, Bool.or_eq_true, decide_eq_true_eq] at h
  rcases h with ((h | h) | h) | h <;> subst h <;> decide

theorem splitWsAux_all_ws :
    ∀ s : Str, (∀ c ∈ s, c.isWhitespace = true) → splitWsAux s [] = [] := by
  intro s
  induction s with
  | nil => intro _; simp [splitWsAux]
  | cons c cs ih =>
    intro h
    have hc : c.isWhitespace = true := h c (List.mem_cons_self c cs)
    rw [splitWsAux, if_pos hc, if_pos rfl]
    exact ih (fun x hx => h x (List.mem_cons_of_mem c hx))

theorem searchTermsOf_ws_nil (query : Str) (h : ∀ c ∈ query, c.isWhitespace = true) :
    searchTermsOf query = [] := by
  rw [searchTermsOf, splitWs]
  apply splitWsAux_all_ws
  intro c hc
  rcases List.mem_map.mp hc with ⟨c0, hc0, rfl⟩
  rw [toLower_of_isWhitespace (h c0 hc0)]
  exact h c0 hc0

theorem chunkMatches_nil (content : Str) : chunkMatches content [] = true := rfl

theorem scoreChunk_nil (content : Str) : scoreChunk content [] = 0 := rfl

theorem createExcerpt_nil (content : Str) :
    createExcerpt content [] 500 = truncateText content 500 := by
  have hb : bestMatchIndex content [] = content.length := rfl
  rw [createExcerpt, excerptParts, if_pos hb]
  simp

theorem filterMap_if_true {α β : Type} (f : α → β) (l : List α) :
    l.filterMap (fun x => some (f x)) = l.map f := by
  induction l with
  | nil => rfl
  | cons x xs ih => simp [List.filterMap_cons, ih]

theorem mkSearchResult_nil_terms (metadata : TranscriptMetadata)
    (chunks : List TranscriptChunk) (i : Nat) (chunk : TranscriptChunk)
    (ic : Bool) :
    mkSearchResult metadata chunks i chunk [] ic
      = { sessionID := metadata.sessionID
          sessionTitle := metadata.title
          messageID := chunk.messageID
          role := chunk.role
          excerpt := truncateText chunk.content 500
          timestamp := chunk.timestamp
          score := 0
          context := if ic then chunkContext chunks i else emptyContext } := by
  rw [mkSearchResult, createExcerpt_nil, scoreChunk_nil]

theorem transcriptResults_nil_terms (ic : Bool) (metadata : TranscriptMetadata)
    (t : Transcript) :
    transcriptResults [] ic metadata t
      = t.chunks.enum.map
          (fun p =>
            { sessionID := metadata.sessionID
              sessionTitle := metadata.title
              messageID := p.2.messageID
              role := p.2.role
              excerpt := truncateText p.2.content 500
              timestamp := p.2.timestamp
              score := 0
              context := if ic then chunkContext t.chunks p.1 else emptyContext }) := by
  rw [transcriptResults]
  have hfun : (fun (p : Nat × TranscriptChunk) =>
      if chunkMatches p.2.content [] then
        some (mkSearchResult metadata t.chunks p.1 p.2 [] ic)
      else none)
      = fun p => some (mkSearchResult metadata t.chunks p.1 p.2 [] ic) := by
    funext p
    simp [chunkMatches]
  rw [hfun, filterMap_if_true]
  apply List.map_congr_left
  intro p _
  rw [mkSearchResult_nil_terms]

theorem sorted_of_all_zero :
    ∀ (l : List SearchResult), (∀ r ∈ l, r.score = 0) →
      l.Sorted (fun a b => b.score ≤ a.score)
  | [], _ => List.sorted_nil
  | x :: xs, h => by
    rw [List.sorted_cons]
    refine ⟨?_, sorted_of_all_zero xs (fun r hr => h r (List.mem_cons_of_mem x hr))⟩
    intro b hb
    rw [h b (List.mem_cons_of_mem x hb), h x (List.mem_cons_self x xs)]

theorem mem_allChunkResults_score (candidates : List (TranscriptMetadata × Option Transcript))
    (ic : Bool) : ∀ r ∈ allChunkResults candidates ic, r.score = 0 := by
  intro r hr
  rw [allChunkResults] at hr
  rcases List.mem_flatMap.mp hr with ⟨c, _, hrc⟩
  rcases h2 : c.2 with _ | t
  · rw [h2] at hrc
    cases hrc
  · rw [h2] at hrc
    rcases List.mem_map.mp hrc with ⟨p, _, rfl⟩
    rfl

theorem length_flatMap' {α β : Type} (l : List α) (f : α → List β) :
    (l.flatMap f).length = (l.map (fun a => (f a).length)).sum := by
  induction l with
  | nil => rfl
  | cons x xs ih => simp [List.flatMap_cons, ih]

/-- C9: a query that is empty or all whitespace tokenises to no terms, every
chunk passes the conjunctive filter vacuously with score 0, and — the sort
being stable on the all-equal scores — the search returns the first `limit`
chunk results in iteration order, not an empty list. -/
theorem empty_query_returns_first_chunks (query : Str)
    (hws : ∀ c ∈ query, c.isWhitespace = true)
    (candidates : List (TranscriptMetadata × Option Transcript)) (limit : Nat) :
    searchTermsOf query = [] ∧
    searchTranscripts candidates query limit true
      = (allChunkResults candidates true).take limit ∧
    (∀ r ∈ searchTranscripts candidates query limit true, r.score = 0) ∧
    (allChunkResults candidates true).length
      = (candidates.map
          (fun c => match c.2 with
            | none => 0
            | some t => t.chunks.length)).sum := by
  have hterms := searchTermsOf_ws_nil query hws
  have hflat : (candidates.flatMap
      (fun c => match c.2 with
        | none => []
        | some t => transcriptResults [] true c.1 t)) = allChunkResults candidates true := by
    rw [allChunkResults]
    have hfun : (fun (c : TranscriptMetadata × Option Transcript) =>
        match c.2 with
        | none => ([] : List SearchResult)
        | some t => transcriptResults [] true c.1 t)
        = fun c => match c.2 with
          | none => []
          | some t => t.chunks.enum.map
              (fun p =>
                { sessionID := c.1.sessionID
                  sessionTitle := c.1.title
                  messageID := p.2.messageID
                  role := p.2.role
                  excerpt := truncateText p.2.content 500
                  timestamp := p.2.timestamp
                  score := 0
                  context := if true then chunkContext t.chunks p.1
                    else emptyContext }) := by
      funext c
      rcases h2 : c.2 with _ | t
      · simp [h2]
      · simp only [h2]
        exact transcriptResults_nil_terms true c.1 t
    rw [hfun]
  have heq : searchTranscripts candidates query limit true
      = (allChunkResults candidates true).take limit := by
    rw [searchTranscripts, hterms, hflat, sortByScoreDesc,
      List.Sorted.insertionSort_eq (sorted_of_all_zero _ (mem_allChunkResults_score candidates true))]
  refine ⟨hterms, heq, ?_, ?_⟩
  · intro r hr
    rw [heq] at hr
    exact mem_allChunkResults_score candidates true r ((List.take_sublist _ _).mem hr)
  · rw [allChunkResults, length_flatMap']
    congr 1
    apply List.map_congr_left
    intro c _
    rcases h2 : c.2 with _ | t
    · simp [h2]
    · simp [h2]

theorem empty_query_returns_first_chunks_witness :
    (∀ c ∈ ([' '] : Str), c.isWhitespace = true) ∧
    (searchTermsOf [' '] = [] ∧
      searchTranscripts [(sampleMeta, some transcriptA)] [' '] 10 true
        = (allChunkResults [(sampleMeta, some transcriptA)] true).take 10 ∧
      (∀ r ∈ searchTranscripts [(sampleMeta, some transcriptA)] [' '] 10 true,
        r.score = 0) ∧
      (allChunkResults [(sampleMeta, some transcriptA)] true).length
        = ([(sampleMeta, some transcriptA)].map
            (fun c => match c.2 with
              | none => 0
              | some t => t.chunks.length)).sum) :=
  ⟨by decide,
    empty_query_returns_first_chunks [' '] (by decide) [(sampleMeta, some transcriptA)] 10⟩
